import Mathlib

/-!
A shallow embedding of the code-generation orchestrator in
xtask/src/main.rs: the input resolver, the naming-patch engine, the
merge/cleanup stage of the protobuf codec driver, the prost codec
driver, and the subprocess helper exec, together with theorems about
the determinism, ordering, patching and error-propagation properties
of the per-target pipeline.

Strings of the embedded program are modelled as lists of characters, so
that every operation (the Rust functions str::replace, str::lines,
str::contains, Path::extension and the byte-lexicographic slice sort)
is an executable structural recursion and every theorem can be checked
on concrete inputs by kernel evaluation.
-/

namespace Xtask

/-- Strings of the embedded program, as lists of characters. -/
abbrev Str := List Char

/-- Convert a Lean string literal to the embedded representation. -/
def str (s : String) : Str := s.data

/-- Rust str::contains for a literal pattern: `pat` occurs as a
contiguous substring of the argument. -/
def occursIn (pat : Str) : Str → Bool
  | [] => pat.isEmpty
  | c :: rest => pat.isPrefixOf (c :: rest) || occursIn pat rest

/-- Fuel-indexed worker for `replaceAll`.  Scans left to right; on a
match of the (nonempty) pattern it emits the replacement and resumes
after the matched segment, exactly like Rust str::replace with a
nonempty literal pattern.  The fuel starts at the length of the string
and strictly bounds the number of characters still to be scanned, so
the zero-fuel fallback is never reached on a nonempty suffix. -/
def replaceGo (old new : Str) : Nat → Str → Str
  | 0, s => s
  | fuel + 1, s =>
    match s with
    | [] => []
    | c :: rest =>
      if !old.isEmpty && old.isPrefixOf s then
        new ++ replaceGo old new fuel (s.drop old.length)
      else
        c :: replaceGo old new fuel rest

/-- Rust str::replace for a nonempty literal pattern: replace every
non-overlapping occurrence of `old` by `new`, left to right.  (All
patterns in the NAMING_PATCH table are nonempty; for an empty pattern
this embedding is the identity.) -/
def replaceAll (old new s : Str) : Str := replaceGo old new s.length s

/-- One patch rule of the naming-patch engine: apply the listed
(old, new) literal substitutions to the whole content, strictly in
table order (the body of the closure passed to `modify` in
generate_protobuf). -/
def applyFixes (fixes : List (Str × Str)) (content : Str) : Str :=
  fixes.foldl (fun c p => replaceAll p.1 p.2 c) content

/-- The substitution list of the single NAMING_PATCH entry for
health/src/proto/protobuf/health.rs, in source order. -/
def healthFixes : List (Str × Str) :=
  [ (str "HealthCheckResponse_ServingStatus", str "ServingStatus"),
    (str "NOT_SERVING", str "NotServing"),
    (str "SERVICE_UNKNOWN", str "ServiceUnknown"),
    (str "UNKNOWN", str "Unknown"),
    (str "SERVING", str "Serving"),
    (str "rustfmt_skip", str "rustfmt::skip") ]

/-- The target file of the single NAMING_PATCH entry. -/
def healthPatchPath : Str := str "health/src/proto/protobuf/health.rs"

/-- The NAMING_PATCH table: one rule, for the generated health file. -/
def NAMING_PATCH : List (Str × List (Str × Str)) := [(healthPatchPath, healthFixes)]

/-- Prepend a character to the first field of a field list. -/
def consHead (c : Char) : List Str → List Str
  | [] => [[c]]
  | l :: ls => (c :: l) :: ls

/-- Split a string at every newline character, keeping all fields
(including a final empty field for a trailing newline). -/
def splitNl : Str → List Str
  | [] => [[]]
  | c :: rest =>
    if c = '\n' then [] :: splitNl rest
    else consHead c (splitNl rest)

/-- Remove one trailing carriage return, if present. -/
def rstripCR : Str → Str
  | [] => []
  | c :: rest =>
    match rest with
    | [] => if c = '\r' then [] else [c]
    | d :: rest2 => c :: rstripCR (d :: rest2)

/-- Post-process the newline fields the way Rust str::lines does: the
final field is dropped when empty (optional trailing line ending) and
kept verbatim otherwise; every earlier field was terminated by a
newline, so one trailing carriage return is stripped from it. -/
def stripFields : List Str → List Str
  | [] => []
  | f :: rest =>
    match rest with
    | [] => if f.isEmpty then [] else [f]
    | g :: rest2 => rstripCR f :: stripFields (g :: rest2)

/-- Rust str::lines. -/
def linesOf (s : Str) : List Str := stripFields (splitNl s)

/-- The function remove_match of xtask/src/main.rs: iterate over the
lines of the data and push every line on which the pattern is false,
followed by a newline, onto the output buffer. -/
def remove_match (data : Str) (pattern : Str → Bool) : Str :=
  (linesOf data).foldl (fun tgt l => if pattern l then tgt else tgt ++ l ++ ['\n']) []

/-- Join lines back into a buffer, terminating each with a newline. -/
def joinNl (ls : List Str) : Str := ls.foldr (fun l acc => l ++ '\n' :: acc) []

/-- The literal whose containing lines the cleanup pass deletes. -/
def versionPat : Str := str "::protobuf::VERSION"

/-- Split the reverse of a file name at its first dot: returns the
reversed extension and the remaining (reversed) stem, or none when no
dot occurs. -/
def dotSplit : Str → Option (Str × Str)
  | [] => none
  | c :: rest =>
    if c = '.' then some ([], rest)
    else
      match dotSplit rest with
      | none => none
      | some p => some (c :: p.1, p.2)

/-- Rust Path::extension on a file name: the portion after the last
dot, or none when there is no dot or when the only dot is the leading
character of a dotfile (empty stem). -/
def extension (name : Str) : Option Str :=
  match dotSplit name.reverse with
  | none => none
  | some p => if p.2.isEmpty then none else some p.1.reverse

/-- A directory, as an association list from file name to content. -/
abbrev Dir := List (Str × Str)

def lookupFile : Dir → Str → Option Str
  | [], _ => none
  | e :: rest, name => if e.1 = name then some e.2 else lookupFile rest name

def setFile : Dir → Str → Str → Dir
  | [], _, _ => []
  | e :: rest, name, newC =>
    if e.1 = name then (e.1, newC) :: rest else e :: setFile rest name newC

/-- The function modify of xtask/src/main.rs on a directory entry:
open the file (a missing file aborts the process via unwrap), apply
the transformation to the whole content, write it back. -/
def modifyFile (d : Dir) (name : Str) (f : Str → Str) : Option Dir :=
  match lookupFile d name with
  | none => none
  | some c => some (setFile d name (f c))

/-- The line pattern removed by the cleanup pass. -/
def vcheck : Str → Bool := fun l => occursIn versionPat l

/-- The service-stub file-name suffix. -/
def grpcSuffix : Str := str "_grpc.rs"

/-- The re-export statement appended to the sibling message file. -/
def reexportLine (stem : Str) : Str := str "\npub use super::" ++ stem ++ str "::*;\n"

/-- One iteration of the merge/cleanup scan of generate_protobuf over
one directory entry: abort when the entry has no extension (unwrap on
Path::extension); skip entries whose extension is not rs; for a
service-stub entry append the re-export line to the sibling
message-definition file; finally strip version-check lines from the
entry itself. -/
def processEntry (d : Dir) (name : Str) : Option Dir :=
  match extension name with
  | none => none
  | some ext =>
    if ext = str "rs" then
      let step1 :=
        if grpcSuffix.isSuffixOf name then
          modifyFile d (name.take (name.length - 8) ++ str ".rs")
            (fun c => c ++ reexportLine (name.take (name.length - 3)))
        else some d
      match step1 with
      | none => none
      | some d1 => modifyFile d1 name (fun c => remove_match c vcheck)
    else some d

/-- The merge/cleanup loop of generate_protobuf, over directory
entries in enumeration order. -/
def mergeCleanup (order : List Str) (d : Dir) : Option Dir :=
  match order with
  | [] => some d
  | n :: rest =>
    match processEntry d n with
    | none => none
    | some d1 => mergeCleanup rest d1

/-- A clean generated line: no embedded newline, no trailing carriage
return, and no version-check reference. -/
abbrev CleanLine (l : Str) : Prop :=
  '\n' ∉ l ∧ rstripCR l = l ∧ occursIn versionPat l = false

/-- The NAMING_PATCH loop of generate_protobuf: modify each listed
path (a missing target file aborts the process) by the rule fixes. -/
def applyPatchesD (table : List (Str × List (Str × Str))) (d : Dir) : Option Dir :=
  match table with
  | [] => some d
  | r :: rest =>
    match modifyFile d r.1 (applyFixes r.2) with
    | none => none
    | some d1 => applyPatchesD rest d1

/-- The remove-if-exists-then-create prologue of both codec drivers:
the resulting out_dir state is empty whatever was there before. -/
def recreateDir : Option Dir → Dir
  | some _ => []
  | none => []

/-- The filesystem effect of generate_protobuf on the out_dir of one
generation target.  The two schema-compiler invocations are modelled
as a deterministic function of the resolved inputs producing the
entries gen; the directory enumeration of the merge scan is modelled
as a deterministic function enum of the directory state; table holds
the NAMING_PATCH entries that lie inside this out_dir (the single rule
for the health target, none for the others).  A none result is a
process abort during post-processing. -/
def generate_protobuf_model (gen : Dir) (table : List (Str × List (Str × Str)))
    (enum : Dir → List Str) (prev : Option Dir) : Option Dir :=
  match applyPatchesD table (recreateDir prev ++ gen) with
  | none => none
  | some d1 => mergeCleanup (enum d1) d1

/-- The filesystem effect of generate_prost on its out_dir: recreate,
then the self-contained generator writes a deterministic function of
the inputs. -/
def generate_prost_model (genB : Dir) (prev : Option Dir) : Dir :=
  recreateDir prev ++ genB

/-- One row of the PROTOS table. -/
structure ProtoEntry where
  includeDir : Str
  packages : List Str
  outRoot : Str
  pkgLabel : Str

/-- The PROTOS table of xtask/src/main.rs, in source order. -/
def PROTOS : List ProtoEntry :=
  [ ⟨str "grpc-sys/grpc/src/proto", [str "grpc/health/v1"], str "health/src/proto", str ""⟩,
    ⟨str "proto/proto", [str "grpc/testing"], str "proto/src/proto", str "testing"⟩,
    ⟨str "proto/proto", [str "grpc/example"], str "proto/src/proto", str "example"⟩,
    ⟨str "proto/proto", [str "google/rpc"], str "proto/src/proto", str "google/rpc"⟩ ]

/-- The primary (protobuf) out_dir of a target. -/
def protobufOutDir (t : ProtoEntry) : Str := t.outRoot ++ str "/protobuf/" ++ t.pkgLabel

/-- The naming-patch step exactly as it executes during EVERY
iteration of the per-target loop: the NAMING_PATCH table names one
fixed global path, independent of the current target. -/
def patchStep (fs : Dir) : Option Dir := applyPatchesD NAMING_PATCH fs

/-- Byte-lexicographic string order, as Rust sort_unstable compares
string slices (for UTF-8 data, byte order and code-point order
coincide). -/
def lexLe : Str → Str → Bool
  | [], _ => true
  | _ :: _, [] => false
  | a :: s, b :: t => if a = b then lexLe s t else decide (a < b)

/-- The sort relation of the embedded sort_unstable call. -/
abbrev LeR (a b : Str) : Prop := lexLe a b = true

/-- The full path string of an enumerated schema file, as produced by
the display of read_dir entry paths: include_root/package/file_name. -/
def mkPath (includeDir p n : Str) : Str := includeDir ++ '/' :: p ++ '/' :: n

/-- The input resolver of codegen: for each listed package, enumerate
the directory include/package (enum models fs::read_dir and yields the
file names in whatever order the filesystem reports), keep entries
whose extension is proto, record their full paths, then sort the
collected list (inputs_ref.sort_unstable; insertion sort produces the
same list as any correct sort, since by antisymmetry of the
byte-lexicographic order equal-ranked keys are identical). -/
def resolveInputs (includeDir : Str) (packages : List Str) (enum : Str → List Str) :
    List Str :=
  List.insertionSort LeR
    (packages.flatMap fun p =>
      (enum p).filterMap fun n =>
        if extension n = some (str "proto") then some (mkPath includeDir p n) else none)

/-- The outcome of one external tool call as the code observes it: the
spawn failed, the child exited with a code, or the child was killed by
a signal and has no exit code. -/
inductive ProcResult where
  | spawnFail : ProcResult
  | exited : Int → ProcResult
  | signaled : ProcResult
deriving DecidableEq

/-- The function exec of xtask/src/main.rs: a spawn error exits the
process with -1; an unsuccessful status exits with the child exit
code, or with -1 when the child was killed by a signal and has no
code; a status with code 0 returns normally. -/
def exec : ProcResult → Except Int Unit
  | .spawnFail => .error (-1)
  | .exited c => if c = 0 then .ok () else .error c
  | .signaled => .error (-1)

/-- The exit code the process terminates with when an exec-run
subprocess returns r; none when r is success. -/
def failCode : ProcResult → Option Int
  | .spawnFail => some (-1)
  | .exited c => if c = 0 then none else some c
  | .signaled => some (-1)

/-- The kinds of external-tool calls the codegen pipeline makes: lib
is the protoc_rust library call of generate_protobuf, whose failure
aborts through an unwrap panic (Rust panic exit code 101, the inner
compiler status is not propagated); sub is a subprocess run through
exec. -/
inductive StepKind where
  | lib : StepKind
  | sub : StepKind
deriving DecidableEq

/-- Execute one pipeline step given the observed result of the
external tool it invokes. -/
def runStepK : StepKind → ProcResult → Except Int Unit
  | .sub, r => exec r
  | .lib, r => if r = .exited 0 then .ok () else .error 101

/-- Run the pipeline steps in program order; env gives the result of
the k-th external call.  The first failing step terminates the whole
process: the error carries the exit code and the number of calls made
(no later step runs). -/
def runProg (env : Nat → ProcResult) : List StepKind → Nat → Except (Int × Nat) Nat
  | [], k => .ok k
  | s :: rest, k =>
    match runStepK s (env k) with
    | .ok _ => runProg env rest (k + 1)
    | .error c => .error (c, k + 1)

/-- The external calls of generate_protobuf, in order: the protoc_rust
library call, the cargo build of grpcio-compiler, and the protoc
invocation with the grpc plugin. -/
def protobufSteps : List StepKind := [.lib, .sub, .sub]

/-- The external calls of generate_prost, in order: the cargo build of
grpc_rust_prost and its invocation. -/
def prostSteps : List StepKind := [.sub, .sub]

/-- All external calls of codegen in program order: for each PROTOS
target the protobuf driver then the prost driver, then the final
cargo fmt. -/
def codegenSteps : List StepKind :=
  (PROTOS.flatMap fun _ => protobufSteps ++ prostSteps) ++ [.sub]

example : replaceAll (str "UNKNOWN") (str "Unknown") (str "a UNKNOWN b UNKNOWN") =
    str "a Unknown b Unknown" := by decide

example : applyFixes healthFixes (str "SERVICE_UNKNOWN") = str "ServiceUnknown" := by decide

/-- If the pattern does not occur in the string, one replacement pass
leaves the string unchanged. -/
theorem replaceGo_of_not_occurs {old new : Str} :
    ∀ (fuel : Nat) (s : Str), occursIn old s = false → replaceGo old new fuel s = s
  | 0, _, _ => rfl
  | _ + 1, [], _ => rfl
  | fuel + 1, c :: rest, h => by
    have h' : old.isPrefixOf (c :: rest) = false ∧ occursIn old rest = false := by
      simpa [occursIn, Bool.or_eq_false_iff] using h
    simp [replaceGo, h'.1, replaceGo_of_not_occurs fuel rest h'.2]

/-- Rust str::replace is the identity when the pattern is absent. -/
theorem replaceAll_of_not_occurs {old new s : Str} (h : occursIn old s = false) :
    replaceAll old new s = s :=
  replaceGo_of_not_occurs _ _ h

/-- A whole substitution list is the identity on content in which no
old literal of the list occurs. -/
theorem applyFixes_of_not_occurs {fixes : List (Str × Str)} {s : Str}
    (h : ∀ p ∈ fixes, occursIn p.1 s = false) : applyFixes fixes s = s := by
  induction fixes with
  | nil => rfl
  | cons p rest ih =>
    have h1 : replaceAll p.1 p.2 s = s := replaceAll_of_not_occurs (h p (by simp))
    simp only [applyFixes, List.foldl_cons, h1]
    exact ih fun q hq => h q (by simp [hq])

/-- C3: the naming-patch engine applies the substitutions of the health
rule strictly in listed table order, each one replacing every
occurrence across the entire content; in particular SERVICE_UNKNOWN is
rewritten to ServiceUnknown and NOT_SERVING to NotServing, because
those substitutions fire before the broader UNKNOWN and SERVING
renames. -/
theorem c3_patch_substitutions_in_listed_order (content : Str) :
    applyFixes healthFixes content =
      replaceAll (str "rustfmt_skip") (str "rustfmt::skip")
        (replaceAll (str "SERVING") (str "Serving")
          (replaceAll (str "UNKNOWN") (str "Unknown")
            (replaceAll (str "SERVICE_UNKNOWN") (str "ServiceUnknown")
              (replaceAll (str "NOT_SERVING") (str "NotServing")
                (replaceAll (str "HealthCheckResponse_ServingStatus") (str "ServingStatus")
                  content))))) ∧
    applyFixes healthFixes (str "SERVICE_UNKNOWN") = str "ServiceUnknown" ∧
    applyFixes healthFixes (str "NOT_SERVING") = str "NotServing" ∧
    applyFixes healthFixes (str "status: SERVICE_UNKNOWN or NOT_SERVING") =
      str "status: ServiceUnknown or NotServing" :=
  ⟨rfl, by decide, by decide, by decide⟩

/-- C10 counterexample: applying the health substitution list twice is
not the same as applying it once for every input string.  On this
input the first substitution of the table re-creates its own old
literal (the replacement ServingStatus is a suffix of the pattern, and
the untouched text just before the match ends in
HealthCheckResponse_), so the old literal survives one full
application and fires again on the second. -/
theorem c10_counterexample :
    applyFixes healthFixes (applyFixes healthFixes
      (str "HealthCheckResponse_HealthCheckResponse_ServingStatusStatus")) ≠
    applyFixes healthFixes
      (str "HealthCheckResponse_HealthCheckResponse_ServingStatusStatus") := by
  decide

/-- C10 (amended): applying the health substitution list twice equals
applying it once for every input string whose once-patched form
contains no old literal of the table; the re-application on later
generation targets is a textual no-op exactly on such contents. -/
theorem c10_patch_idempotent_without_residual (s : Str)
    (h : ∀ p ∈ healthFixes, occursIn p.1 (applyFixes healthFixes s) = false) :
    applyFixes healthFixes (applyFixes healthFixes s) = applyFixes healthFixes s :=
  applyFixes_of_not_occurs h

/-- Witness for the amended C10 on a concrete generated-looking
content. -/
theorem c10_patch_idempotent_without_residual_witness :
    (∀ p ∈ healthFixes,
      occursIn p.1 (applyFixes healthFixes (str "UNKNOWN SERVING NOT_SERVING")) = false) ∧
    applyFixes healthFixes (applyFixes healthFixes (str "UNKNOWN SERVING NOT_SERVING")) =
      applyFixes healthFixes (str "UNKNOWN SERVING NOT_SERVING") :=
  ⟨by decide, c10_patch_idempotent_without_residual _ (by decide)⟩

theorem splitNl_ne_nil : ∀ (s : Str), splitNl s ≠ []
  | [] => by simp [splitNl]
  | c :: rest => by
    rw [splitNl]
    by_cases hc : c = '\n'
    · simp [hc]
    · rw [if_neg hc]
      cases hsp : splitNl rest <;> simp [consHead]

example : remove_match (str "a\nx ::protobuf::VERSION y\nb")
    (fun l => occursIn versionPat l) = str "a\nb\n" := by decide

theorem foldl_remove_eq (pattern : Str → Bool) :
    ∀ (L : List Str) (acc : Str),
      L.foldl (fun tgt l => if pattern l then tgt else tgt ++ l ++ ['\n']) acc =
        acc ++ joinNl (L.filter fun l => !pattern l)
  | [], acc => by simp [joinNl]
  | l :: L, acc => by
    by_cases h : pattern l = true
    · rw [List.foldl_cons, if_pos h, List.filter_cons_of_neg (by simp [h]),
        foldl_remove_eq pattern L acc]
    · rw [List.foldl_cons, if_neg h, List.filter_cons_of_pos (by simp [h]),
        foldl_remove_eq pattern L (acc ++ l ++ ['\n'])]
      show _ = acc ++ (l ++ '\n' :: joinNl _)
      simp [List.append_assoc]

/-- remove_match keeps exactly the non-matching lines, unchanged and in
their original relative order, each terminated by a newline. -/
theorem remove_match_eq_joinNl_filter (data : Str) (pattern : Str → Bool) :
    remove_match data pattern = joinNl ((linesOf data).filter fun l => !pattern l) := by
  rw [remove_match, foldl_remove_eq pattern (linesOf data) [], List.nil_append]

theorem splitNl_line (rest : Str) :
    ∀ (k : Str), '\n' ∉ k → splitNl (k ++ '\n' :: rest) = k :: splitNl rest
  | [], _ => by simp [splitNl]
  | c :: k, h => by
    have hc : ¬c = '\n' := fun hc => h (by simp [hc])
    have hk : '\n' ∉ k := fun hk => h (List.mem_cons_of_mem c hk)
    rw [List.cons_append, splitNl, if_neg hc, splitNl_line rest k hk]
    rfl

theorem splitNl_joinNl :
    ∀ (K : List Str), (∀ k ∈ K, '\n' ∉ k) → splitNl (joinNl K) = K ++ [[]]
  | [], _ => rfl
  | k :: K, h => by
    have : joinNl (k :: K) = k ++ '\n' :: joinNl K := rfl
    rw [this, splitNl_line (joinNl K) k (h k (List.mem_cons_self k K)),
      splitNl_joinNl K fun q hq => h q (List.mem_cons_of_mem k hq)]
    rfl

theorem stripFields_cons_of_ne_nil (f : Str) {rest : List Str} (h : rest ≠ []) :
    stripFields (f :: rest) = rstripCR f :: stripFields rest := by
  cases rest with
  | nil => exact absurd rfl h
  | cons g rest2 => rfl

theorem stripFields_append_empty :
    ∀ (K : List Str), stripFields (K ++ [[]]) = K.map rstripCR
  | [] => rfl
  | f :: K => by
    rw [List.cons_append, stripFields_cons_of_ne_nil f (by simp),
      stripFields_append_empty K, List.map_cons]

/-- The lines of a buffer assembled from newline-free lines are exactly
those lines, with a trailing carriage return stripped from each. -/
theorem linesOf_joinNl (K : List Str) (h : ∀ k ∈ K, '\n' ∉ k) :
    linesOf (joinNl K) = K.map rstripCR := by
  rw [linesOf, splitNl_joinNl K h, stripFields_append_empty]

theorem splitNl_no_newline : ∀ (s : Str), ∀ l ∈ splitNl s, '\n' ∉ l
  | [] => by
    intro l hl
    have hl0 : l = [] := by simpa [splitNl] using hl
    simp [hl0]
  | c :: rest => by
    intro l hl
    by_cases hc : c = '\n'
    · rw [splitNl, if_pos hc] at hl
      rcases List.mem_cons.1 hl with h | h
      · simp [h]
      · exact splitNl_no_newline rest l h
    · rw [splitNl, if_neg hc] at hl
      rcases hsp : splitNl rest with _ | ⟨l0, ls⟩
      · exact absurd hsp (splitNl_ne_nil rest)
      · rw [hsp] at hl
        simp only [consHead] at hl
        rcases List.mem_cons.1 hl with h | h
        · subst h
          intro hm
          rcases List.mem_cons.1 hm with h1 | h1
          · exact hc h1.symm
          · exact splitNl_no_newline rest l0 (by rw [hsp]; exact List.mem_cons_self l0 ls) h1
        · exact splitNl_no_newline rest l (by rw [hsp]; exact List.mem_cons_of_mem l0 h)

theorem rstripCR_prefix : ∀ (l : Str), rstripCR l <+: l
  | [] => ⟨[], rfl⟩
  | c :: rest => by
    cases rest with
    | nil =>
      by_cases h : c = '\r'
      · exact ⟨[c], by simp [rstripCR, h]⟩
      · exact ⟨[], by simp [rstripCR, h]⟩
    | cons d rest2 =>
      rcases rstripCR_prefix (d :: rest2) with ⟨t, ht⟩
      exact ⟨t, by simp [rstripCR, ht]⟩

theorem stripFields_no_newline :
    ∀ (F : List Str), (∀ f ∈ F, '\n' ∉ f) → ∀ l ∈ stripFields F, '\n' ∉ l
  | [], _ => by intro l hl; simp [stripFields] at hl
  | f :: rest, h => by
    intro l hl
    cases rest with
    | nil =>
      by_cases he : (f : Str).isEmpty
      · simp [stripFields, he] at hl
      · rw [stripFields] at hl
        simp only [he] at hl
        rw [if_neg (by simp [he])] at hl
        rcases List.mem_cons.1 hl with h1 | h1
        · exact h1 ▸ h f (List.mem_cons_self f [])
        · simp at h1
    | cons g rest2 =>
      rw [stripFields_cons_of_ne_nil f (by simp)] at hl
      rcases List.mem_cons.1 hl with h1 | h1
      · subst h1
        intro hm
        rcases rstripCR_prefix f with ⟨t, ht⟩
        exact h f (List.mem_cons_self f _) (ht ▸ List.mem_append_left t hm)
      · exact stripFields_no_newline (g :: rest2)
          (fun q hq => h q (List.mem_cons_of_mem f hq)) l h1

theorem linesOf_no_newline (s : Str) : ∀ l ∈ linesOf s, '\n' ∉ l :=
  stripFields_no_newline (splitNl s) (splitNl_no_newline s)

theorem occursIn_nil_pat : ∀ (s : Str), occursIn [] s = true
  | [] => rfl
  | _ :: rest => by simp [occursIn, List.isPrefixOf]

theorem occursIn_append_right (p : Str) (b : Str) :
    ∀ (a : Str), occursIn p a = true → occursIn p (a ++ b) = true
  | [], h => by
    have : p = [] := by simpa [occursIn, List.isEmpty_iff] using h
    simp [this, occursIn_nil_pat]
  | c :: a, h => by
    rw [occursIn, Bool.or_eq_true] at h
    rcases h with h | h
    · have hp : p <+: c :: a := List.isPrefixOf_iff_prefix.1 h
      have : p <+: (c :: a) ++ b := hp.trans (List.prefix_append (c :: a) b)
      rw [List.cons_append, occursIn, Bool.or_eq_true]
      exact Or.inl (List.isPrefixOf_iff_prefix.2 (by simpa using this))
    · rw [List.cons_append, occursIn, Bool.or_eq_true]
      exact Or.inr (occursIn_append_right p b a h)

theorem occursIn_rstripCR_false {p l : Str} (h : occursIn p l = false) :
    occursIn p (rstripCR l) = false := by
  rcases rstripCR_prefix l with ⟨t, ht⟩
  by_contra hc
  have := occursIn_append_right p t (rstripCR l)
    (by revert hc; cases occursIn p (rstripCR l) <;> simp)
  rw [ht, h] at this
  exact Bool.false_ne_true this

/-- C5: version-line stripping.  The cleanup pass keeps exactly the
lines not containing ::protobuf::VERSION, unchanged and in their
original relative order (first conjunct), and no line of the cleaned
buffer contains that reference (second conjunct). -/
theorem c5_version_line_stripping (data : Str) :
    remove_match data (fun l => occursIn versionPat l) =
      joinNl ((linesOf data).filter fun l => !occursIn versionPat l) ∧
    ∀ l ∈ linesOf (remove_match data (fun l => occursIn versionPat l)),
      occursIn versionPat l = false := by
  refine ⟨remove_match_eq_joinNl_filter data _, ?_⟩
  intro l hl
  rw [remove_match_eq_joinNl_filter data _] at hl
  rw [linesOf_joinNl _ (fun k hk => linesOf_no_newline data k (List.mem_of_mem_filter hk))] at hl
  rcases List.mem_map.1 hl with ⟨k, hk, rfl⟩
  have hkeep : (!occursIn versionPat k) = true := (List.mem_filter.1 hk).2
  exact occursIn_rstripCR_false (by simpa using hkeep)

/-- Witness for C5 at a concrete buffer and line. -/
theorem c5_version_line_stripping_witness :
    str "a" ∈ linesOf (remove_match (str "a\nx ::protobuf::VERSION y\nb")
      (fun l => occursIn versionPat l)) ∧
    occursIn versionPat (str "a") = false :=
  ⟨by decide, (c5_version_line_stripping (str "a\nx ::protobuf::VERSION y\nb")).2
    (str "a") (by decide)⟩

example : extension (str "foo.rs") = some (str "rs") := by decide

example : extension (str "Makefile") = none := by decide

example : extension (str ".hidden") = none := by decide

example : extension (str "a.b.proto") = some (str "proto") := by decide

example : mergeCleanup [str "m.rs", str "m_grpc.rs"]
    [(str "m.rs", str "x\n"), (str "m_grpc.rs", str "y\n")] =
    some [(str "m.rs", str "x\n\npub use super::m_grpc::*;\n"),
          (str "m_grpc.rs", str "y\n")] := by decide

/-- C9: the merge/cleanup scan aborts (returns none, the embedding of
a process panic) whenever the enumerated directory entries contain an
entry with no file extension at all, regardless of directory contents
and of where in the enumeration the entry occurs; such an entry is
never skipped. -/
theorem c9_extensionless_entry_aborts (order : List Str) (name : Str)
    (hmem : name ∈ order) (hext : extension name = none) :
    ∀ (d : Dir), mergeCleanup order d = none := by
  induction order with
  | nil => exact absurd hmem (List.not_mem_nil name)
  | cons n rest ih =>
    intro d
    rcases List.mem_cons.1 hmem with h | h
    · subst h
      simp [mergeCleanup, processEntry, hext]
    · rw [mergeCleanup]
      cases hpe : processEntry d n with
      | none => rfl
      | some d1 => exact ih h d1

/-- Witness for C9 at a concrete directory and enumeration. -/
theorem c9_extensionless_entry_aborts_witness :
    str "Makefile" ∈ [str "a.rs", str "Makefile"] ∧
    extension (str "Makefile") = none ∧
    mergeCleanup [str "a.rs", str "Makefile"] [(str "a.rs", str "x\n"),
      (str "Makefile", str "m")] = none :=
  ⟨by decide, by decide,
    c9_extensionless_entry_aborts [str "a.rs", str "Makefile"] (str "Makefile")
      (by decide) (by decide) [(str "a.rs", str "x\n"), (str "Makefile", str "m")]⟩

/-- C4 counterexample: after the full merge/cleanup stage the stub
file is NOT left unmodified (its version-check line is stripped), and
the message file is not exactly its original content plus the
re-export line (line-ending normalisation also rewrites it): here the
stub content ::protobuf::VERSION plus newline becomes empty. -/
theorem c4_counterexample :
    mergeCleanup [str "m.rs", str "m_grpc.rs"]
      [(str "m.rs", str "x"), (str "m_grpc.rs", str "::protobuf::VERSION\n")] =
      some [(str "m.rs", str "x\n\npub use super::m_grpc::*;\n"), (str "m_grpc.rs", [])] ∧
    ([] : Str) ≠ str "::protobuf::VERSION\n" ∧
    str "x\n\npub use super::m_grpc::*;\n" ≠
      str "x" ++ reexportLine (str "m_grpc") := by
  refine ⟨by decide, by decide, by decide⟩

theorem map_rstrip_clean {K : List Str} (h : ∀ k ∈ K, rstripCR k = k) :
    K.map rstripCR = K := by
  induction K with
  | nil => rfl
  | cons k K ih => rw [List.map_cons, h k (by simp), ih fun q hq => h q (by simp [hq])]

/-- The cleanup pass is the identity on a buffer assembled from clean
lines. -/
theorem remove_match_joinNl_clean {K : List Str} (h : ∀ k ∈ K, CleanLine k) :
    remove_match (joinNl K) vcheck = joinNl K := by
  rw [remove_match_eq_joinNl_filter, linesOf_joinNl K fun k hk => (h k hk).1,
    map_rstrip_clean fun k hk => (h k hk).2.1]
  rw [List.filter_eq_self.2 fun k hk => by simp [vcheck, (h k hk).2.2]]

theorem joinNl_append : ∀ (X Y : List Str), joinNl (X ++ Y) = joinNl X ++ joinNl Y
  | [], _ => rfl
  | x :: X, Y => by
    show x ++ '\n' :: joinNl (X ++ Y) = (x ++ '\n' :: joinNl X) ++ joinNl Y
    rw [joinNl_append X Y]
    simp [List.append_assoc]

theorem dotSplit_cons_ne {c : Char} (h : ¬c = '.') (rest : Str) :
    dotSplit (c :: rest) =
      match dotSplit rest with
      | none => none
      | some p => some (c :: p.1, p.2) := by
  rw [dotSplit, if_neg h]

theorem dotSplit_cons_dot (rest : Str) : dotSplit ('.' :: rest) = some ([], rest) := by
  rw [dotSplit, if_pos rfl]

theorem extension_append_rs (m : Str) (hm : m ≠ []) :
    extension (m ++ str ".rs") = some (str "rs") := by
  have h1 : (m ++ str ".rs").reverse = 's' :: 'r' :: '.' :: m.reverse := by
    rw [List.reverse_append]; rfl
  have h2 : dotSplit ('s' :: 'r' :: '.' :: m.reverse) = some (['s', 'r'], m.reverse) := by
    rw [dotSplit_cons_ne (by decide), dotSplit_cons_ne (by decide), dotSplit_cons_dot]
  have h3 : m.reverse.isEmpty = false := by
    cases hr : m.reverse with
    | nil => exact absurd (List.reverse_eq_nil_iff.1 hr) hm
    | cons a t => rfl
  rw [extension, h1, h2]
  simp only [h3, Bool.false_eq_true, if_false]
  decide

theorem extension_append_grpc_rs (m : Str) :
    extension (m ++ str "_grpc.rs") = some (str "rs") := by
  have h1 : (m ++ str "_grpc.rs").reverse =
      's' :: 'r' :: '.' :: ('c' :: 'p' :: 'r' :: 'g' :: '_' :: m.reverse) := by
    rw [List.reverse_append]; rfl
  have h2 : dotSplit ('s' :: 'r' :: '.' :: ('c' :: 'p' :: 'r' :: 'g' :: '_' :: m.reverse)) =
      some (['s', 'r'], 'c' :: 'p' :: 'r' :: 'g' :: '_' :: m.reverse) := by
    rw [dotSplit_cons_ne (by decide), dotSplit_cons_ne (by decide), dotSplit_cons_dot]
  rw [extension, h1, h2]
  rfl

theorem grpcSuffix_isSuffix (m : Str) :
    grpcSuffix.isSuffixOf (m ++ str "_grpc.rs") = true :=
  List.isSuffixOf_iff_suffix.2 (List.suffix_append m (str "_grpc.rs"))

theorem stub_take_module (m : Str) :
    (m ++ str "_grpc.rs").take ((m ++ str "_grpc.rs").length - 8) = m := by
  have hlen : (m ++ str "_grpc.rs").length = m.length + 8 := by simp [str]
  rw [hlen, Nat.add_sub_cancel, List.take_left]

theorem stub_take_stem (m : Str) :
    (m ++ str "_grpc.rs").take ((m ++ str "_grpc.rs").length - 3) = m ++ str "_grpc" := by
  have hlen : (m ++ str "_grpc.rs").length = m.length + 8 := by simp [str]
  have h5 : m.length + 8 - 3 = m.length + 5 := by omega
  rw [hlen, h5, List.take_append 5]
  rfl

theorem pb_ne_stub (m : Str) : ¬(m ++ str ".rs" = m ++ str "_grpc.rs") := by
  intro h
  have := List.append_cancel_left h
  exact absurd this (by decide)

/-- Processing the message-definition entry of a two-file module
directory: only the version-line cleanup applies to it. -/
theorem processEntry_pb (m X Y : Str) (hm : m ≠ [])
    (hns : grpcSuffix.isSuffixOf (m ++ str ".rs") = false) :
    processEntry [(m ++ str ".rs", X), (m ++ str "_grpc.rs", Y)] (m ++ str ".rs") =
      some [(m ++ str ".rs", remove_match X vcheck), (m ++ str "_grpc.rs", Y)] := by
  rw [processEntry, extension_append_rs m hm]
  simp [hns, modifyFile, lookupFile, setFile]

/-- Processing the service-stub entry of a two-file module directory:
the re-export line is appended to the sibling message file, then the
version-line cleanup applies to the stub itself. -/
theorem processEntry_stub (m X Y : Str) :
    processEntry [(m ++ str ".rs", X), (m ++ str "_grpc.rs", Y)] (m ++ str "_grpc.rs") =
      some [(m ++ str ".rs", X ++ reexportLine (m ++ str "_grpc")),
            (m ++ str "_grpc.rs", remove_match Y vcheck)] := by
  rw [processEntry, extension_append_grpc_rs m]
  rw [stub_take_module m, stub_take_stem m]
  simp [grpcSuffix_isSuffix m, modifyFile, lookupFile, setFile, pb_ne_stub m]

theorem mergeCleanup_cons (n : Str) (rest : List Str) (d : Dir) :
    mergeCleanup (n :: rest) d =
      match processEntry d n with
      | none => none
      | some d1 => mergeCleanup rest d1 := rfl

/-- C4 (amended): for a directory holding a message-definition file
and its sibling service stub whose contents consist of clean lines
(newline-terminated, no trailing carriage return, no version-check
reference), and whose module name yields a clean re-export line, the
merge/cleanup stage appends exactly one re-export line to the message
file and leaves the stub byte-identical, for either enumeration order.
(Without the clean-content hypotheses the cleanup half of the stage
also rewrites both files, as the counterexample shows.) -/
theorem c4_merge_appends_reexport (m : Str) (LA LB : List Str) (order : List Str)
    (hm : m ≠ [])
    (hns : grpcSuffix.isSuffixOf (m ++ str ".rs") = false)
    (hLA : ∀ l ∈ LA, CleanLine l) (hLB : ∀ l ∈ LB, CleanLine l)
    (hre : CleanLine (str "pub use super::" ++ (m ++ str "_grpc") ++ str "::*;"))
    (horder : order = [m ++ str ".rs", m ++ str "_grpc.rs"] ∨
              order = [m ++ str "_grpc.rs", m ++ str ".rs"]) :
    mergeCleanup order [(m ++ str ".rs", joinNl LA), (m ++ str "_grpc.rs", joinNl LB)] =
      some [(m ++ str ".rs", joinNl LA ++ reexportLine (m ++ str "_grpc")),
            (m ++ str "_grpc.rs", joinNl LB)] := by
  have hA : remove_match (joinNl LA) vcheck = joinNl LA := remove_match_joinNl_clean hLA
  have hB : remove_match (joinNl LB) vcheck = joinNl LB := remove_match_joinNl_clean hLB
  have hAre : remove_match (joinNl LA ++ reexportLine (m ++ str "_grpc")) vcheck =
      joinNl LA ++ reexportLine (m ++ str "_grpc") := by
    have e1 : str "\npub use super::" = '\n' :: str "pub use super::" := by decide
    have e2 : str "::*;\n" = str "::*;" ++ ['\n'] := by decide
    have h1 : joinNl LA ++ reexportLine (m ++ str "_grpc") =
        joinNl (LA ++ [[], str "pub use super::" ++ (m ++ str "_grpc") ++ str "::*;"]) := by
      rw [joinNl_append]
      congr 1
      show reexportLine (m ++ str "_grpc") =
        [] ++ '\n' :: ((str "pub use super::" ++ (m ++ str "_grpc") ++ str "::*;") ++
          '\n' :: joinNl [])
      rw [reexportLine, e1, e2]
      simp [joinNl, List.append_assoc]
    rw [h1]
    refine remove_match_joinNl_clean ?_
    intro k hk
    rcases List.mem_append.1 hk with h | h
    · exact hLA k h
    · rcases List.mem_cons.1 h with h | h
      · subst h
        exact ⟨by simp, rfl, by decide⟩
      · have : k = str "pub use super::" ++ (m ++ str "_grpc") ++ str "::*;" := by
          simpa using h
        exact this ▸ hre
  rcases horder with h | h <;> subst h
  · rw [mergeCleanup_cons, processEntry_pb m _ _ hm hns, hA]
    show mergeCleanup [m ++ str "_grpc.rs"]
      [(m ++ str ".rs", joinNl LA), (m ++ str "_grpc.rs", joinNl LB)] = _
    rw [mergeCleanup_cons, processEntry_stub m _ _, hB]
    rfl
  · rw [mergeCleanup_cons, processEntry_stub m _ _, hB]
    show mergeCleanup [m ++ str ".rs"]
      [(m ++ str ".rs", joinNl LA ++ reexportLine (m ++ str "_grpc")),
       (m ++ str "_grpc.rs", joinNl LB)] = _
    rw [mergeCleanup_cons, processEntry_pb m _ _ hm hns, hAre]
    rfl

/-- Witness for the amended C4 on a concrete module directory. -/
theorem c4_merge_appends_reexport_witness :
    mergeCleanup [str "health.rs", str "health_grpc.rs"]
      [(str "health.rs", joinNl [str "pub struct A;"]),
       (str "health_grpc.rs", joinNl [str "pub struct B;"])] =
      some [(str "health.rs", joinNl [str "pub struct A;"] ++ reexportLine (str "health_grpc")),
            (str "health_grpc.rs", joinNl [str "pub struct B;"])] := by
  have h := c4_merge_appends_reexport (str "health") [str "pub struct A;"]
    [str "pub struct B;"] [str "health.rs", str "health_grpc.rs"]
    (by decide) (by decide) (by decide) (by decide) (by decide) (Or.inl (by decide))
  simpa using h

/-- C1: per-target pipeline idempotence.  Because each codec driver
deletes the output directory if it exists and recreates it, the
output of either driver does not depend on the previous state of its
out_dir at all (first two conjuncts); in particular running the whole
per-target pipeline a second time on the unchanged schema tree
reproduces the first run byte for byte (third conjunct). -/
theorem c1_pipeline_idempotent (gen genB : Dir) (table : List (Str × List (Str × Str)))
    (enum : Dir → List Str) (prev prev2 : Option Dir) (d : Dir) :
    generate_protobuf_model gen table enum prev =
      generate_protobuf_model gen table enum prev2 ∧
    generate_prost_model genB prev = generate_prost_model genB prev2 ∧
    (generate_protobuf_model gen table enum prev = some d →
      generate_protobuf_model gen table enum (some d) = some d) := by
  have hrec : ∀ (p q : Option Dir), recreateDir p = recreateDir q := by
    intro p q
    cases p <;> cases q <;> rfl
  have h1 : ∀ (p q : Option Dir),
      generate_protobuf_model gen table enum p = generate_protobuf_model gen table enum q := by
    intro p q
    rw [generate_protobuf_model, generate_protobuf_model, hrec p q]
  refine ⟨h1 prev prev2, ?_, ?_⟩
  · rw [generate_prost_model, generate_prost_model, hrec prev prev2]
  · intro h
    rw [h1 (some d) prev, h]

/-- Witness for C1: a concrete first run that succeeds, and the second
run over its own output reproducing it. -/
theorem c1_pipeline_idempotent_witness :
    generate_protobuf_model [(str "a.rs", str "x\n")] [] (fun d => d.map Prod.fst) none =
      some [(str "a.rs", str "x\n")] ∧
    generate_protobuf_model [(str "a.rs", str "x\n")] [] (fun d => d.map Prod.fst)
      (some [(str "a.rs", str "x\n")]) = some [(str "a.rs", str "x\n")] :=
  ⟨by decide,
    (c1_pipeline_idempotent [(str "a.rs", str "x\n")] [] [] (fun d => d.map Prod.fst)
      none none [(str "a.rs", str "x\n")]).2.2 (by decide)⟩

theorem lookupFile_setFile_ne (name p c : Str) (hne : ¬p = name) :
    ∀ (d : Dir), lookupFile (setFile d name c) p = lookupFile d p
  | [] => rfl
  | e :: rest => by
    by_cases h : e.1 = name
    · have hep : ¬(e.1 = p) := fun hc => hne (hc ▸ h)
      simp only [setFile, if_pos h, lookupFile, if_neg hep]
    · simp only [setFile, if_neg h, lookupFile]
      by_cases h2 : e.1 = p
      · simp only [if_pos h2]
      · simp only [if_neg h2, lookupFile_setFile_ne name p c hne rest]

/-- C8 counterexample: the naming-patch step executed during the
iteration of the second generation target (primary output directory
proto/src/proto/protobuf/testing) rewrites the health file, which does
not lie under that output directory — so the patch step is NOT scoped
to the current target. -/
theorem c8_counterexample :
    patchStep [(healthPatchPath, str "UNKNOWN x")] =
      some [(healthPatchPath, str "Unknown x")] ∧
    str "Unknown x" ≠ str "UNKNOWN x" ∧
    (protobufOutDir ⟨str "proto/proto", [str "grpc/testing"], str "proto/src/proto",
      str "testing"⟩).isPrefixOf healthPatchPath = false := by
  refine ⟨by decide, by decide, by decide⟩

/-- C8 (amended): the patch step only ever writes the single fixed
file of the NAMING_PATCH table (frame property, first conjunct); that
file lies under the primary output directory of the FIRST target only
(second conjunct); and within generate_protobuf the patch step runs
after the generation into the freshly recreated out_dir and before the
merge/cleanup scan (third conjunct, the pipeline factorisation). -/
theorem c8_patch_frame_and_order :
    (∀ (fs fs2 : Dir) (p : Str), patchStep fs = some fs2 → ¬p = healthPatchPath →
      lookupFile fs2 p = lookupFile fs p) ∧
    (protobufOutDir ⟨str "grpc-sys/grpc/src/proto", [str "grpc/health/v1"],
      str "health/src/proto", str ""⟩).isPrefixOf healthPatchPath = true ∧
    (∀ (gen : Dir) (table : List (Str × List (Str × Str))) (enum : Dir → List Str)
      (prev : Option Dir),
      generate_protobuf_model gen table enum prev =
        match applyPatchesD table (recreateDir prev ++ gen) with
        | none => none
        | some d1 => mergeCleanup (enum d1) d1) := by
  refine ⟨?_, by decide, fun gen table enum prev => rfl⟩
  intro fs fs2 p hp hne
  rw [patchStep, NAMING_PATCH] at hp
  simp only [applyPatchesD, modifyFile] at hp
  cases hl : lookupFile fs healthPatchPath with
  | none =>
    rw [hl] at hp
    exact absurd hp (by simp)
  | some c =>
    rw [hl] at hp
    have h2 : fs2 = setFile fs healthPatchPath (applyFixes healthFixes c) := by
      simpa using hp.symm
    rw [h2, lookupFile_setFile_ne healthPatchPath p _ hne fs]

/-- Witness for the amended C8 frame property on a concrete map. -/
theorem c8_patch_frame_and_order_witness :
    patchStep [(healthPatchPath, str "UNKNOWN")] = some [(healthPatchPath, str "Unknown")] ∧
    lookupFile [(healthPatchPath, str "Unknown")] (str "other.rs") =
      lookupFile [(healthPatchPath, str "UNKNOWN")] (str "other.rs") :=
  ⟨by decide,
    c8_patch_frame_and_order.1 [(healthPatchPath, str "UNKNOWN")]
      [(healthPatchPath, str "Unknown")] (str "other.rs") (by decide) (by decide)⟩

theorem lexLe_total : ∀ (a b : Str), lexLe a b = true ∨ lexLe b a = true
  | [], _ => Or.inl rfl
  | _ :: _, [] => Or.inr rfl
  | a :: s, b :: t => by
    by_cases h : a = b
    · subst h
      rcases lexLe_total s t with h1 | h1
      · exact Or.inl (by simp [lexLe, h1])
      · exact Or.inr (by simp [lexLe, h1])
    · have hba : ¬b = a := fun hc => h hc.symm
      rcases lt_or_gt_of_ne h with hlt | hgt
      · exact Or.inl (by simp [lexLe, h, hlt])
      · exact Or.inr (by simp [lexLe, hba, hgt])

theorem lexLe_trans : ∀ (a b c : Str),
    lexLe a b = true → lexLe b c = true → lexLe a c = true
  | [], _, _, _, _ => rfl
  | _ :: _, [], _, h, _ => by simp [lexLe] at h
  | _ :: _, _ :: _, [], _, h => by simp [lexLe] at h
  | a :: s, b :: t, c :: u, h1, h2 => by
    by_cases hab : a = b <;> by_cases hbc : b = c
    · subst hab; subst hbc
      simp only [lexLe, if_pos rfl] at h1 h2 ⊢
      exact lexLe_trans s t u h1 h2
    · subst hab
      simp only [lexLe, if_pos rfl] at h1
      simp only [lexLe, if_neg hbc] at h2
      have hac : ¬a = c := hbc
      have hlt : a < c := of_decide_eq_true h2
      simp [lexLe, hac, hlt]
    · subst hbc
      simp only [lexLe, if_neg hab] at h1
      have hlt : a < b := of_decide_eq_true h1
      simp [lexLe, hab, hlt]
    · simp only [lexLe, if_neg hab] at h1
      simp only [lexLe, if_neg hbc] at h2
      have hlt : a < c := lt_trans (of_decide_eq_true h1) (of_decide_eq_true h2)
      have hac : ¬a = c := ne_of_lt hlt
      simp [lexLe, hac, hlt]

theorem lexLe_antisymm : ∀ (a b : Str), lexLe a b = true → lexLe b a = true → a = b
  | [], [], _, _ => rfl
  | [], _ :: _, _, h => by simp [lexLe] at h
  | _ :: _, [], h, _ => by simp [lexLe] at h
  | a :: s, b :: t, h1, h2 => by
    by_cases hab : a = b
    · subst hab
      simp only [lexLe, if_pos rfl] at h1 h2
      rw [lexLe_antisymm s t h1 h2]
    · have hba : ¬b = a := fun hc => hab hc.symm
      simp only [lexLe, if_neg hab] at h1
      simp only [lexLe, if_neg hba] at h2
      exact absurd (of_decide_eq_true h2) (lt_asymm (of_decide_eq_true h1))

instance : IsTotal Str LeR := ⟨lexLe_total⟩

instance : IsTrans Str LeR := ⟨lexLe_trans⟩

instance : IsAntisymm Str LeR := ⟨lexLe_antisymm⟩

example : resolveInputs (str "i") [str "g"]
    (fun _ => [str "b.proto", str "x.txt", str "a.proto"]) =
    [str "i/g/a.proto", str "i/g/b.proto"] := by decide

theorem flatMap_perm_congr (f g : Str → List Str) :
    ∀ (ps : List Str), (∀ p ∈ ps, (f p).Perm (g p)) → (ps.flatMap f).Perm (ps.flatMap g)
  | [], _ => List.Perm.refl _
  | p :: ps, h => by
    rw [List.flatMap_cons, List.flatMap_cons]
    exact (h p (by simp)).append (flatMap_perm_congr f g ps fun q hq => h q (by simp [hq]))

/-- C2: input-ordering determinism.  If two directory enumerations
return the same file sets per package (as permutations of each other),
the resolver yields the identical input list, and that list is sorted
in the byte-lexicographic order: the resolved order does not depend on
the filesystem enumeration order. -/
theorem c2_resolver_order_independent (includeDir : Str) (packages : List Str)
    (enum1 enum2 : Str → List Str)
    (h : ∀ p ∈ packages, (enum1 p).Perm (enum2 p)) :
    resolveInputs includeDir packages enum1 = resolveInputs includeDir packages enum2 ∧
    List.Sorted LeR (resolveInputs includeDir packages enum1) := by
  refine ⟨?_, List.sorted_insertionSort LeR _⟩
  have hp : (packages.flatMap fun p =>
      (enum1 p).filterMap fun n =>
        if extension n = some (str "proto") then some (mkPath includeDir p n) else none).Perm
      (packages.flatMap fun p =>
        (enum2 p).filterMap fun n =>
          if extension n = some (str "proto") then some (mkPath includeDir p n) else none) :=
    flatMap_perm_congr _ _ packages fun p hmem => (h p hmem).filterMap _
  exact List.eq_of_perm_of_sorted
    (((List.perm_insertionSort LeR _).trans hp).trans (List.perm_insertionSort LeR _).symm)
    (List.sorted_insertionSort LeR _) (List.sorted_insertionSort LeR _)

/-- Witness for C2: two opposite enumeration orders resolve to the
same sorted list. -/
theorem c2_resolver_order_independent_witness :
    resolveInputs (str "i") [str "g"] (fun _ => [str "b.proto", str "a.proto"]) =
      resolveInputs (str "i") [str "g"] (fun _ => [str "a.proto", str "b.proto"]) ∧
    resolveInputs (str "i") [str "g"] (fun _ => [str "b.proto", str "a.proto"]) =
      [str "i/g/a.proto", str "i/g/b.proto"] :=
  ⟨(c2_resolver_order_independent (str "i") [str "g"]
      (fun _ => [str "b.proto", str "a.proto"]) (fun _ => [str "a.proto", str "b.proto"])
      (fun p _ => List.Perm.swap _ _ _)).1,
    by decide⟩

theorem slash_split : ∀ (p1 n1 p2 n2 : Str), '/' ∉ n1 → '/' ∉ n2 →
    p1 ++ '/' :: n1 = p2 ++ '/' :: n2 → p1 = p2 ∧ n1 = n2
  | [], n1, [], n2, _, _, h => by
    refine ⟨rfl, ?_⟩
    injection h
  | [], n1, c :: p2, n2, h1, _, h => by
    injection h with hc ht
    exact absurd (ht ▸ List.mem_append_right p2 (List.mem_cons_self '/' n2)) h1
  | c :: p1, n1, [], n2, _, h2, h => by
    injection h with hc ht
    exact absurd (ht ▸ List.mem_append_right p1 (List.mem_cons_self '/' n1)) h2
  | c :: p1, n1, d :: p2, n2, h1, h2, h => by
    injection h with hc ht
    rcases slash_split p1 n1 p2 n2 h1 h2 ht with ⟨hp, hn⟩
    exact ⟨by rw [hc, hp], hn⟩

theorem mkPath_inj {includeDir p1 n1 p2 n2 : Str} (h1 : '/' ∉ n1) (h2 : '/' ∉ n2)
    (h : mkPath includeDir p1 n1 = mkPath includeDir p2 n2) : p1 = p2 ∧ n1 = n2 := by
  rw [mkPath, mkPath, List.append_assoc, List.append_assoc] at h
  have h3 := List.append_cancel_left h
  rw [List.cons_append, List.cons_append] at h3
  injection h3 with _ h4
  exact slash_split p1 n1 p2 n2 h1 h2 h4

/-- C7 counterexample: the resolver performs no deduplication — a
package listed twice yields the same file path twice in the resolved
input list. -/
theorem c7_counterexample :
    resolveInputs (str "i") [str "a", str "a"] (fun _ => [str "x.proto"]) =
      [str "i/a/x.proto", str "i/a/x.proto"] ∧
    ¬(resolveInputs (str "i") [str "a", str "a"] (fun _ => [str "x.proto"])).Nodup := by
  refine ⟨by decide, by decide⟩

/-- C7 (amended): the code never deduplicates, but the resolved input
list contains no duplicate paths whenever the listed packages are
pairwise distinct, each directory enumeration is duplicate-free (as a
real filesystem guarantees), and file names contain no slash: distinct
packages then contribute distinct full paths.  (In the fixed PROTOS
table every target lists exactly one package.) -/
theorem c7_resolved_inputs_nodup (includeDir : Str) (packages : List Str)
    (enum : Str → List Str)
    (hpk : packages.Nodup)
    (hen : ∀ p ∈ packages, (enum p).Nodup)
    (hsl : ∀ p ∈ packages, ∀ n ∈ enum p, '/' ∉ n) :
    (resolveInputs includeDir packages enum).Nodup := by
  rw [resolveInputs]
  refine (List.perm_insertionSort LeR _).nodup_iff.2 ?_
  rw [List.nodup_flatMap]
  constructor
  · intro p hp
    refine List.Nodup.filterMap ?_ (hen p hp)
    intro a a2 b hb1 hb2
    by_cases hc1 : extension a = some (str "proto")
    case neg =>
      rw [if_neg hc1] at hb1
      simp at hb1
    case pos =>
      by_cases hc2 : extension a2 = some (str "proto")
      case neg =>
        rw [if_neg hc2] at hb2
        simp at hb2
      case pos =>
        rw [if_pos hc1] at hb1
        rw [if_pos hc2] at hb2
        have e1 : mkPath includeDir p a = b := by simpa using hb1
        have e2 : mkPath includeDir p a2 = b := by simpa using hb2
        have h5 := List.append_cancel_left (e1.trans e2.symm)
        injection h5
  · refine hpk.imp_of_mem ?_
    intro p q hp hq hne x hx1 hx2
    rcases List.mem_filterMap.1 hx1 with ⟨n1, hn1, he1⟩
    rcases List.mem_filterMap.1 hx2 with ⟨n2, hn2, he2⟩
    by_cases hc1 : extension n1 = some (str "proto")
    case neg =>
      rw [if_neg hc1] at he1
      simp at he1
    case pos =>
      by_cases hc2 : extension n2 = some (str "proto")
      case neg =>
        rw [if_neg hc2] at he2
        simp at he2
      case pos =>
        rw [if_pos hc1] at he1
        rw [if_pos hc2] at he2
        have e1 : mkPath includeDir p n1 = x := by simpa using he1
        have e2 : mkPath includeDir q n2 = x := by simpa using he2
        have := mkPath_inj (hsl p hp n1 hn1) (hsl q hq n2 hn2) (e1.trans e2.symm)
        exact hne this.1

/-- Witness for the amended C7 on two distinct packages sharing a file
name. -/
theorem c7_resolved_inputs_nodup_witness :
    (resolveInputs (str "i") [str "a", str "b"] (fun _ => [str "x.proto"])).Nodup :=
  c7_resolved_inputs_nodup (str "i") [str "a", str "b"] (fun _ => [str "x.proto"])
    (by decide) (fun p _ => List.nodup_singleton (str "x.proto")) (fun p _ n hn => by
      have hn2 : n = str "x.proto" := by simpa using hn
      subst hn2
      intro hmem
      revert hmem
      decide)

theorem runProg_first_fail (env : Nat → ProcResult) :
    ∀ (L : List StepKind) (k i : Nat) (c : Int),
      L[i]? = some .sub →
      (∀ j, j < i → env (k + j) = .exited 0) →
      failCode (env (k + i)) = some c →
      runProg env L k = .error (c, k + i + 1)
  | [], _, i, _, hL, _, _ => by simp at hL
  | s :: rest, k, 0, c, hL, _, hf => by
    have hs : s = StepKind.sub := by simpa using hL
    subst hs
    rw [Nat.add_zero] at hf
    have hexec : exec (env k) = .error c := by
      cases hr : env k with
      | spawnFail =>
        rw [hr] at hf
        have hf2 : some (-1 : Int) = some c := hf
        have hc : c = -1 := by injection hf2 with h; exact h.symm
        rw [hc]; rfl
      | signaled =>
        rw [hr] at hf
        have hf2 : some (-1 : Int) = some c := hf
        have hc : c = -1 := by injection hf2 with h; exact h.symm
        rw [hc]; rfl
      | exited c0 =>
        rw [hr] at hf
        by_cases h0 : c0 = 0
        · subst h0
          exact absurd hf (by simp [failCode])
        · have hf2 : some c0 = some c := by simpa [failCode, h0] using hf
          have hc : c = c0 := by injection hf2 with h; exact h.symm
          simp only [exec, if_neg h0, hc]
    rw [runProg]
    rw [show runStepK StepKind.sub (env k) = exec (env k) from rfl, hexec]

  | s :: rest, k, i + 1, c, hL, h0, hf => by
    have hek : env k = .exited 0 := by simpa using h0 0 (Nat.succ_pos i)
    have hok : runStepK s (env k) = .ok () := by
      cases s <;> simp [runStepK, hek, exec]
    rw [runProg, hok]
    have hL2 : rest[i]? = some StepKind.sub := by simpa using hL
    have h02 : ∀ j, j < i → env (k + 1 + j) = .exited 0 := by
      intro j hj
      have h := h0 (j + 1) (by omega)
      rwa [show k + 1 + j = k + (j + 1) by omega]
    have hf2 : failCode (env (k + 1 + i)) = some c := by
      rwa [show k + 1 + i = k + (i + 1) by omega]
    have hrec := runProg_first_fail env rest (k + 1) i c hL2 h02 hf2
    rwa [show k + 1 + i + 1 = k + (i + 1) + 1 by omega] at hrec

/-- C6: fatal exit-code propagation.  If every external call before
position i succeeds and the call at position i is an exec-run
subprocess whose result carries fail code c (the exit code verbatim,
or the sentinel -1 for a spawn failure or a kill by signal), then the
whole codegen run terminates with exit code c having made exactly
i + 1 external calls: no later pipeline step and no later generation
target ever executes. -/
theorem c6_exit_code_propagation (env : Nat → ProcResult) (i : Nat) (c : Int)
    (hstep : codegenSteps[i]? = some .sub)
    (hbefore : ∀ j, j < i → env j = .exited 0)
    (hfail : failCode (env i) = some c) :
    runProg env codegenSteps 0 = .error (c, i + 1) := by
  have h := runProg_first_fail env codegenSteps 0 i c hstep
    (fun j hj => by simpa using hbefore j hj) (by simpa using hfail)
  simpa using h

/-- Witness for C6: the schema-compiler invocation with the grpc
plugin (third external call of the first target) exits with code 3,
and the whole run exits with code 3 after exactly three calls. -/
theorem c6_exit_code_propagation_witness :
    codegenSteps[2]? = some StepKind.sub ∧
    failCode ((fun j => if j = 2 then ProcResult.exited 3 else .exited 0) 2) = some 3 ∧
    runProg (fun j => if j = 2 then ProcResult.exited 3 else .exited 0) codegenSteps 0 =
      .error (3, 3) :=
  ⟨by decide, by decide,
    c6_exit_code_propagation (fun j => if j = 2 then ProcResult.exited 3 else .exited 0) 2 3
      (by decide) (by decide) (by decide)⟩

end Xtask

